import Mathlib

/-!
Verification of the `rust_compress` pipeline (`src/main.rs`).

A shallow embedding of the concurrent chunked-compression pipeline:

* `Chunk`, `CompressionError`, `CompressionMessage` mirror the Rust types
  (`src/main.rs` lines 25-63).
* `Codec` abstracts the external `flate2::write::DeflateEncoder`
  collaborator: `compress fed` is the block `finish()` returns for the
  bytes fed so far, `bufLen fed` is `get_ref().len()` after feeding,
  `feedErr` / `finishFails` say whether `write_all` / `finish` fail.
* `CompressionWorker.run` mirrors the worker loop (lines 76-113) as a
  function of the sequence of read results the shared file handle yields;
  it returns the messages sent plus how the worker ended (`finished`,
  `errored` after sending an `Error`, or `panicked` at a `finish().unwrap()`).
* `collectLoop` mirrors the Collector's receive loop in
  `Compressor::compress` (lines 147-176): at most `num_threads` receives,
  `Data` appended, `Error` returned immediately (skipping the join loop,
  recorded in the `joined` field), `Done` breaks, a receive error is
  logged and the loop continues.
* `Writer.write` mirrors lines 182-196: drop `None` chunks, stable-sort
  by compressed length (Rust's `sort_by_key` is stable, modelled by
  `List.mergeSort`), concatenate.
* `get_args` / `mainArgsOut` mirror lines 199-211 together with the Rust
  runtime's behaviour for `fn main() -> Result<..>`: an `Err` return is
  printed as `Error: {:?}` on standard error and the process exits with
  status 1.
* `chunkReads` is the deterministic read sequence a single worker sees on
  a non-shared file: successive `read` calls fill a `chunk_size` buffer.
* `MergeOf streams m` says `m` is an order-preserving interleaving of the
  per-worker message streams, i.e. a sequence the mpsc channel may deliver.
-/

namespace RustCompress

abbrev Byte := Nat

/-- Rust `struct Chunk` (main.rs lines 25-27). -/
structure Chunk where
  compressed_data : Option (List Byte)
  deriving DecidableEq, Repr

/-- Rust `enum CompressionError` (main.rs lines 31-35); the `io::Error`
payload is abstracted to a numeric code. -/
inductive CompressionError where
  | invalidData
  | ioError (code : Nat)
  deriving DecidableEq, Repr

/-- Rust `enum CompressionMessage` (main.rs lines 59-63). -/
inductive CompressionMessage where
  | data (bytes : List Byte)
  | error (e : CompressionError)
  | done
  deriving DecidableEq, Repr

/-- Abstract model of the external streaming compressor
(`flate2::write::DeflateEncoder<Vec<u8>>`), determined by the bytes fed
since the last fresh instance. -/
structure Codec where
  compress : List Byte → List Byte
  decompress : List Byte → List Byte
  bufLen : List Byte → Nat
  feedErr : List Byte → List Byte → Option CompressionError
  finishFails : List Byte → Bool

/-- How a worker's `run` ended: normal completion, an early `return` after
sending an `Error` message, or a panic at a `finish().unwrap()`. -/
inductive WorkerExit where
  | finished
  | errored
  | panicked
  deriving DecidableEq, Repr

/-- Model of `CompressionWorker::run` (main.rs lines 76-113), a function of the
sequence of read results; the second argument is the bytes fed into the
current compressor instance.  An `Except.ok []` read result is `Ok(0)`
(end of input); exhausting the list is also treated as end of input. -/
def CompressionWorker.run (c : Codec) (chunk_size : Nat) :
    List (Except CompressionError (List Byte)) → List Byte →
    List CompressionMessage × WorkerExit
  | [], fed =>
      if c.finishFails fed then ([], .panicked)
      else ([.data (c.compress fed), .done], .finished)
  | .error e :: _, _ => ([.error e], .errored)
  | .ok [] :: _, fed =>
      if c.finishFails fed then ([], .panicked)
      else ([.data (c.compress fed), .done], .finished)
  | .ok (b :: bs) :: rest, fed =>
      match c.feedErr fed (b :: bs) with
      | some e => ([.error e], .errored)
      | none =>
          if chunk_size ≤ c.bufLen (fed ++ b :: bs) then
            if c.finishFails (fed ++ b :: bs) then ([], .panicked)
            else
              let r := CompressionWorker.run c chunk_size rest []
              (.data (c.compress (fed ++ b :: bs)) :: r.1, r.2)
          else
            CompressionWorker.run c chunk_size rest (fed ++ b :: bs)

/-- One result of `rx.recv()` in the Collector: a message, or a receive
error (all senders gone). -/
inductive RecvResult where
  | msg (m : CompressionMessage)
  | recvErr
  deriving DecidableEq, Repr

/-- Outcome of the Collector part of `Compressor::compress`
(main.rs lines 147-176): the returned value, whether the join loop at
lines 170-172 was reached (`joined`), and how many receives the loop
performed (`consumed`). -/
structure CollectOut where
  result : Except CompressionError (List Chunk)
  joined : Bool
  consumed : Nat

/-- The Collector's receive loop (main.rs lines 148-167) followed by the
join loop: at most `num_threads` receives; `Data` pushes a chunk, `Error`
returns the error immediately (the join loop is skipped), `Done` breaks,
a receive error is logged and the loop continues. -/
def collectLoop : Nat → List RecvResult → List Chunk → CollectOut
  | 0, _, acc => ⟨.ok acc, true, 0⟩
  | _ + 1, [], acc => ⟨.ok acc, true, 0⟩
  | n + 1, .msg (.data bytes) :: rest, acc =>
      let r := collectLoop n rest (acc ++ [⟨some bytes⟩])
      ⟨r.result, r.joined, r.consumed + 1⟩
  | _ + 1, .msg (.error e) :: _, _ => ⟨.error e, false, 1⟩
  | _ + 1, .msg .done :: _, acc => ⟨.ok acc, true, 1⟩
  | n + 1, .recvErr :: rest, acc =>
      let r := collectLoop n rest acc
      ⟨r.result, r.joined, r.consumed + 1⟩

/-- The comparison `sort_by_key(|chunk| chunk.len())` uses. -/
def lenLE (a b : List Byte) : Bool := decide (a.length ≤ b.length)

/-- Model of `Writer::write` (main.rs lines 182-196): keep the chunks whose
`compressed_data` is `Some`, stable-sort by compressed byte length,
and return the blocks in the order they are written to the file. -/
def Writer.write (chunks : List Chunk) : List (List Byte) :=
  (chunks.filterMap (fun ch => ch.compressed_data)).mergeSort lenLE

/-- Rust `struct Cli` (main.rs lines 11-14). -/
structure Cli where
  input_file_path : String
  output_file_path : String
  deriving DecidableEq, Repr

/-- Model of `get_args` (main.rs lines 199-208): on an argument count other than 3
it prints an empty line to stderr and returns the usage string as an
error. -/
def get_args (args : List String) : Except String Cli :=
  if args.length ≠ 3 then
    Except.error ("Usage: " ++ args.headD "" ++ " <input_file> <output_file>")
  else
    Except.ok ⟨args.getD 1 "", args.getD 2 ""⟩

/-- Observable outcome of the process: exit status and stderr lines. -/
structure ProcOut where
  exitCode : Nat
  stderr : List String
  deriving DecidableEq, Repr

/-- The argument-handling prefix of `main` (main.rs lines 210-211) plus
the Rust runtime's treatment of `fn main() -> Result<..>`: when
`get_args` fails, `?` propagates the error out of `main`, the runtime
prints `Error: {:?}` (the `Debug` of the boxed string, hence quoted) to
stderr after the empty line `eprintln!()` wrote, and the process exits
with status 1.  When `get_args` succeeds the rest of `main` runs
(`onOk`). -/
def mainArgsOut (args : List String) (onOk : ProcOut) : ProcOut :=
  match get_args args with
  | .error msg => ⟨1, ["", "Error: \"" ++ msg ++ "\""]⟩
  | .ok _ => onOk

/-- Fuel-indexed helper for `chunkReads` (structural recursion so that
concrete instances reduce in the kernel). -/
def chunkReadsFuel (cs : Nat) : Nat → List Byte → List (Except CompressionError (List Byte))
  | 0, _ => []
  | _ + 1, [] => []
  | fuel + 1, b :: rest =>
      if cs = 0 then []
      else .ok ((b :: rest).take cs) :: chunkReadsFuel cs fuel ((b :: rest).drop cs)

/-- The deterministic sequence of read results a single worker sees when
it alone reads a file holding `data`: each `input_file.read(&mut buffer)`
with a `chunk_size`-byte buffer returns the next `min chunk_size remaining`
bytes.  (With `chunk_size = 0` a read into an empty buffer returns
`Ok(0)` at once, i.e. no read result carries bytes.) -/
def chunkReads (cs : Nat) (data : List Byte) : List (Except CompressionError (List Byte)) :=
  chunkReadsFuel cs data.length data

/-- The payload of a `Data` message. -/
def msgData : CompressionMessage → Option (List Byte)
  | .data b => some b
  | _ => none

/-- The messages the single worker of a `num_threads = 1` run sends. -/
def singleWorkerMsgs (c : Codec) (cs : Nat) (data : List Byte) : List CompressionMessage :=
  (CompressionWorker.run c cs (chunkReads cs data) []).1

/-- Model of `Compressor::compress` for `num_threads = 1` on a file holding
`data`: the Collector receives from the single worker's message stream in
order. -/
def singleWorkerChunks (c : Codec) (cs : Nat) (data : List Byte) :
    Except CompressionError (List Chunk) :=
  (collectLoop 1 ((singleWorkerMsgs c cs data).map .msg) []).result

/-- The blocks the whole `num_threads = 1` pipeline writes to the output
file, in file order. -/
def pipelineOutput (c : Codec) (cs : Nat) (data : List Byte) : List (List Byte) :=
  match singleWorkerChunks c cs data with
  | .ok chs => Writer.write chs
  | .error _ => []

/-- Decompress each written block independently and concatenate in file
order. -/
def decompressedOutput (c : Codec) (cs : Nat) (data : List Byte) : List Byte :=
  ((pipelineOutput c cs data).map c.decompress).flatten

/-- A transparent codec instance: a valid instantiation of the abstract
codec contract (`decompress ∘ compress = id`, inspectable buffer length,
no failures), used for concrete runs of the pipeline model. -/
def idCodec : Codec where
  compress := fun x => x
  decompress := fun x => x
  bufLen := List.length
  feedErr := fun _ _ => none
  finishFails := fun _ => false

/-- Relation `MergeOf streams m`: `m` is an interleaving of the given streams that
preserves each stream's internal order — the sequences an mpsc channel
can deliver to the Collector when each worker sends one stream. -/
inductive MergeOf : List (List CompressionMessage) → List CompressionMessage → Prop where
  | nil (ss : List (List CompressionMessage)) (h : ∀ s ∈ ss, s = []) : MergeOf ss []
  | cons (ss₁ : List (List CompressionMessage)) (a : CompressionMessage)
      (s : List CompressionMessage) (ss₂ : List (List CompressionMessage))
      (m : List CompressionMessage) :
      MergeOf (ss₁ ++ s :: ss₂) m → MergeOf (ss₁ ++ (a :: s) :: ss₂) (a :: m)

/-- The chunk a received message contributes to the Collector's result
(a `Data` message becomes a `Chunk`, everything else contributes none). -/
def recvChunk : RecvResult → Option Chunk
  | .msg (.data b) => some ⟨some b⟩
  | _ => none

/-- A codec instance whose `finish` fails, exercising the
`finish().unwrap()` calls of the worker (main.rs lines 91 and 107). -/
def failCodec : Codec where
  compress := fun _ => []
  decompress := fun x => x
  bufLen := fun _ => 0
  feedErr := fun _ _ => none
  finishFails := fun _ => true

/- ------------------------------------------------------------------ -/
/- Helper lemmas -/
/- ------------------------------------------------------------------ -/

/-- The receive loop performs at most `num_threads` receives. -/
theorem collectLoop_consumed_le :
    ∀ (n : Nat) (recvs : List RecvResult) (acc : List Chunk),
      (collectLoop n recvs acc).consumed ≤ n
  | 0, _, _ => by simp [collectLoop]
  | _ + 1, [], _ => by simp [collectLoop]
  | n + 1, .msg (.data bytes) :: rest, acc => by
      have h := collectLoop_consumed_le n rest (acc ++ [⟨some bytes⟩])
      simp only [collectLoop]
      omega
  | _ + 1, .msg (.error e) :: _, _ => by simp [collectLoop]
  | _ + 1, .msg .done :: _, _ => by simp [collectLoop]
  | n + 1, .recvErr :: rest, acc => by
      have h := collectLoop_consumed_le n rest acc
      simp only [collectLoop]
      omega

/-- The receive loop stops at the first `Done` message: anything after it
is never received, and everything before it (data or receive errors)
is processed in order. -/
theorem collectLoop_stops_at_done :
    ∀ (pre : List RecvResult) (n : Nat) (post : List RecvResult) (acc : List Chunk),
      (∀ r ∈ pre, (∃ b, r = .msg (.data b)) ∨ r = .recvErr) →
      pre.length < n →
      collectLoop n (pre ++ .msg .done :: post) acc =
        ⟨.ok (acc ++ pre.filterMap recvChunk), true, pre.length + 1⟩
  | [], n, post, acc, _, hn => by
      obtain ⟨m, rfl⟩ : ∃ m, n = m + 1 := ⟨n - 1, by omega⟩
      simp [collectLoop]
  | r :: pre, n, post, acc, hpre, hn => by
      obtain ⟨m, rfl⟩ : ∃ m, n = m + 1 := ⟨n - 1, by omega⟩
      rcases hpre r (by simp) with ⟨b, rfl⟩ | rfl
      · have ih := collectLoop_stops_at_done pre m post (acc ++ [⟨some b⟩])
          (fun r hr => hpre r (by simp [hr])) (by simpa using Nat.lt_of_succ_lt_succ hn)
        simp [collectLoop, ih, recvChunk, List.append_assoc]
      · have ih := collectLoop_stops_at_done pre m post acc
          (fun r hr => hpre r (by simp [hr])) (by simpa using Nat.lt_of_succ_lt_succ hn)
        simp [collectLoop, ih, recvChunk]

/-- The join loop (main.rs lines 170-172) is reached exactly on the
`Ok` paths of `Compressor::compress`; receiving an `Error` message
returns before it. -/
theorem collectLoop_joined_iff :
    ∀ (n : Nat) (recvs : List RecvResult) (acc : List Chunk),
      ((collectLoop n recvs acc).joined = true ↔
        ∃ chs, (collectLoop n recvs acc).result = .ok chs)
  | 0, _, acc => by simp [collectLoop]
  | _ + 1, [], acc => by simp [collectLoop]
  | n + 1, .msg (.data bytes) :: rest, acc => by
      simpa only [collectLoop] using collectLoop_joined_iff n rest (acc ++ [⟨some bytes⟩])
  | _ + 1, .msg (.error e) :: _, _ => by simp [collectLoop]
  | _ + 1, .msg .done :: _, acc => by simp [collectLoop]
  | n + 1, .recvErr :: rest, acc => by
      simpa only [collectLoop] using collectLoop_joined_iff n rest acc

/-- Every chunk the receive loop returns on the `Ok` path carries data,
provided every chunk of the accumulator does. -/
theorem collectLoop_ok_all_some :
    ∀ (n : Nat) (recvs : List RecvResult) (acc chs : List Chunk),
      (∀ ch ∈ acc, ch.compressed_data.isSome) →
      (collectLoop n recvs acc).result = .ok chs →
      ∀ ch ∈ chs, ch.compressed_data.isSome
  | 0, _, acc, chs, hacc, hok => by
      simp only [collectLoop] at hok
      cases hok
      exact hacc
  | _ + 1, [], acc, chs, hacc, hok => by
      simp only [collectLoop] at hok
      cases hok
      exact hacc
  | n + 1, .msg (.data bytes) :: rest, acc, chs, hacc, hok => by
      simp only [collectLoop] at hok
      refine collectLoop_ok_all_some n rest (acc ++ [⟨some bytes⟩]) chs ?_ hok
      intro ch hch
      rcases List.mem_append.mp hch with h | h
      · exact hacc ch h
      · simp only [List.mem_singleton] at h
        subst h
        rfl
  | _ + 1, .msg (.error e) :: _, _, chs, _, hok => by
      simp only [collectLoop] at hok
      cases hok
  | _ + 1, .msg .done :: _, acc, chs, hacc, hok => by
      simp only [collectLoop] at hok
      cases hok
      exact hacc
  | n + 1, .recvErr :: rest, acc, chs, hacc, hok => by
      simp only [collectLoop] at hok
      exact collectLoop_ok_all_some n rest acc chs hacc hok

/-- `filterMap` over the data of chunks that all carry data drops nothing. -/
theorem filterMap_some_length :
    ∀ (l : List Chunk), (∀ ch ∈ l, ch.compressed_data.isSome) →
      (l.filterMap (fun ch => ch.compressed_data)).length = l.length
  | [], _ => rfl
  | ch :: l, h => by
      obtain ⟨d, hd⟩ := Option.isSome_iff_exists.mp (h ch (by simp))
      have ih := filterMap_some_length l (fun ch hch => h ch (by simp [hch]))
      simp [List.filterMap_cons, hd, ih]

/-- The length comparison of `sort_by_key` is transitive. -/
theorem lenLE_trans : ∀ (a b c : List Byte), lenLE a b → lenLE b c → lenLE a c := by
  intro a b c hab hbc
  simp only [lenLE, decide_eq_true_eq] at *
  omega

/-- The length comparison of `sort_by_key` is total. -/
theorem lenLE_total : ∀ (a b : List Byte), lenLE a b || lenLE b a := by
  intro a b
  simp only [lenLE, Bool.or_eq_true, decide_eq_true_eq]
  omega

/-- The fuel of `chunkReadsFuel` is irrelevant once it covers the data. -/
theorem chunkReadsFuel_congr (cs : Nat) :
    ∀ (f₁ f₂ : Nat) (data : List Byte), data.length ≤ f₁ → data.length ≤ f₂ →
      chunkReadsFuel cs f₁ data = chunkReadsFuel cs f₂ data
  | 0, f₂, data, h₁, _ => by
      have : data = [] := List.length_eq_zero.mp (Nat.le_zero.mp h₁)
      subst this
      cases f₂ <;> rfl
  | _ + 1, f₂, [], _, _ => by cases f₂ <;> rfl
  | f₁ + 1, f₂, b :: rest, h₁, h₂ => by
      obtain ⟨g, rfl⟩ : ∃ g, f₂ = g + 1 := ⟨f₂ - 1, by simp at h₂; omega⟩
      by_cases hcs : cs = 0
      · simp [chunkReadsFuel, hcs]
      · have hlen : ((b :: rest).drop cs).length ≤ f₁ := by
          simp only [List.length_drop, List.length_cons]
          simp only [List.length_cons] at h₁
          omega
        have hlen₂ : ((b :: rest).drop cs).length ≤ g := by
          simp only [List.length_drop, List.length_cons]
          simp only [List.length_cons] at h₂
          omega
        simp only [chunkReadsFuel, hcs, if_false]
        rw [chunkReadsFuel_congr cs f₁ g ((b :: rest).drop cs) hlen hlen₂]

/-- Unfolding `chunkReads` on a nonempty file with a nonzero buffer:
the first read returns the first `cs` bytes, the rest are read later. -/
theorem chunkReads_cons (cs : Nat) (hcs : cs ≠ 0) (b : Byte) (rest : List Byte) :
    chunkReads cs (b :: rest) =
      .ok ((b :: rest).take cs) :: chunkReads cs ((b :: rest).drop cs) := by
  show chunkReadsFuel cs (b :: rest).length (b :: rest) = _
  simp only [List.length_cons, chunkReadsFuel, hcs, if_false]
  rw [chunkReadsFuel_congr cs rest.length ((b :: rest).drop cs).length ((b :: rest).drop cs)
    (by simp; omega) (Nat.le_refl _)]
  rfl

/-- Concatenating the independent decompressions of the blocks a lone
worker emits, in emission order, recovers the bytes fed so far plus the
remaining file content: the worker loop loses no data and keeps order.
(`N` is an upper bound on the file size, for the induction.) -/
theorem run_chunkReads_flatten (c : Codec) (cs : Nat) (hcs : cs ≠ 0)
    (hrt : ∀ x, c.decompress (c.compress x) = x)
    (hnf : ∀ fed bs, c.feedErr fed bs = none)
    (hff : ∀ fed, c.finishFails fed = false) :
    ∀ (N : Nat) (data fed : List Byte), data.length ≤ N →
      (((CompressionWorker.run c cs (chunkReads cs data) fed).1.filterMap msgData).map
        c.decompress).flatten = fed ++ data
  | 0, data, fed, hN => by
      have : data = [] := List.length_eq_zero.mp (Nat.le_zero.mp hN)
      subst this
      simp [chunkReads, chunkReadsFuel, CompressionWorker.run, hff, msgData, hrt]
  | N + 1, [], fed, _ => by
      simp [chunkReads, chunkReadsFuel, CompressionWorker.run, hff, msgData, hrt]
  | N + 1, b :: rest, fed, hN => by
      rw [chunkReads_cons cs hcs b rest]
      obtain ⟨k, rfl⟩ : ∃ k, cs = k + 1 := ⟨cs - 1, by omega⟩
      have hdrop : ((b :: rest).drop (k + 1)).length ≤ N := by
        simp only [List.length_drop, List.length_cons]
        simp only [List.length_cons] at hN
        omega
      simp only [List.take_succ_cons, List.drop_succ_cons]
      simp only [CompressionWorker.run, hnf]
      by_cases hbuf : k + 1 ≤ c.bufLen (fed ++ b :: rest.take k)
      · have ih := run_chunkReads_flatten c (k + 1) hcs hrt hnf hff N
          (rest.drop k) [] hdrop
        rw [if_pos hbuf, if_neg (by simp [hff])]
        simp only [List.filterMap_cons, msgData, List.map_cons, List.flatten_cons,
          ih, hrt, List.nil_append]
        rw [List.append_assoc, List.cons_append, List.take_append_drop]
      · have ih := run_chunkReads_flatten c (k + 1) hcs hrt hnf hff N
          (rest.drop k) (fed ++ b :: rest.take k) hdrop
        rw [if_neg hbuf, ih]
        rw [List.append_assoc, List.cons_append, List.take_append_drop]

/-- Every message of a channel interleaving comes from one of the
per-worker streams. -/
theorem mergeOf_mem {ss : List (List CompressionMessage)} {m : List CompressionMessage}
    (h : MergeOf ss m) : ∀ x ∈ m, ∃ s ∈ ss, x ∈ s := by
  induction h with
  | nil ss h => simp
  | cons ss₁ a s ss₂ m _ ih =>
      intro x hx
      rcases List.mem_cons.mp hx with rfl | hx
      · exact ⟨x :: s, by simp, by simp⟩
      · obtain ⟨s', hs', hxs'⟩ := ih x hx
        rcases List.mem_append.mp hs' with h₁ | h₁
        · exact ⟨s', List.mem_append.mpr (Or.inl h₁), hxs'⟩
        · rcases List.mem_cons.mp h₁ with rfl | h₁
          · exact ⟨a :: s', by simp, by simp [hxs']⟩
          · exact ⟨s', by simp [h₁], hxs'⟩

/-- The first delivered message of a channel interleaving is the head of
one of the per-worker streams. -/
theorem mergeOf_head {ss : List (List CompressionMessage)}
    {a : CompressionMessage} {m : List CompressionMessage}
    (h : MergeOf ss (a :: m)) : ∃ t, a :: t ∈ ss := by
  cases h with
  | cons ss₁ a s ss₂ m _ => exact ⟨s, by simp⟩

/-- When every received message is either `Data e` or `Done`, the receive
loop succeeds, reaches the join loop, and collects at most `n` chunks,
all equal to `⟨some e⟩`. -/
theorem collectLoop_dataDone (e : List Byte) :
    ∀ (n : Nat) (recv : List CompressionMessage) (acc : List Chunk),
      (∀ x ∈ recv, x = CompressionMessage.data e ∨ x = .done) →
      ∃ k, k ≤ n ∧
        (collectLoop n (recv.map .msg) acc).result = .ok (acc ++ List.replicate k ⟨some e⟩) ∧
        (collectLoop n (recv.map .msg) acc).joined = true
  | 0, recv, acc, _ => ⟨0, by simp [collectLoop]⟩
  | n + 1, [], acc, _ => ⟨0, by simp [collectLoop]⟩
  | n + 1, x :: recv, acc, hall => by
      rcases hall x (by simp) with rfl | rfl
      · obtain ⟨k, hk, hres, hj⟩ := collectLoop_dataDone e n recv (acc ++ [⟨some e⟩])
          (fun x hx => hall x (by simp [hx]))
        refine ⟨k + 1, by omega, ?_, ?_⟩
        · simp only [List.map_cons, collectLoop, hres]
          rw [List.append_assoc]
          congr 2
        · simpa only [List.map_cons, collectLoop] using hj
      · exact ⟨0, by simp [collectLoop]⟩

/- ------------------------------------------------------------------ -/
/- Claim theorems -/
/- ------------------------------------------------------------------ -/

/-- C4: the Collector's receive loop performs at most `num_threads`
receives, and it stops consuming at the first `Done` message it
receives — whatever messages follow it (further `Data` included) are
never received — so it does not receive until all workers have
signalled completion. -/
theorem claim_C4_collector_bounded_stops_at_done (n : Nat) (recvs : List RecvResult)
    (acc : List Chunk) :
    (collectLoop n recvs acc).consumed ≤ n ∧
    (∀ (pre post : List RecvResult),
      (∀ r ∈ pre, (∃ b, r = .msg (.data b)) ∨ r = .recvErr) →
      pre.length < n →
      collectLoop n (pre ++ .msg .done :: post) acc =
        ⟨.ok (acc ++ pre.filterMap recvChunk), true, pre.length + 1⟩) :=
  ⟨collectLoop_consumed_le n recvs acc,
   fun pre post hpre hn => collectLoop_stops_at_done pre n post acc hpre hn⟩

/-- Witness for C4 at a concrete run: two workers, the first message a
data block, then `Done`, then a further data message that is never
consumed. -/
theorem claim_C4_witness :
    (collectLoop 2 [RecvResult.msg (.data [1]), RecvResult.msg .done] []).consumed ≤ 2 ∧
    collectLoop 2 ([RecvResult.msg (.data [1])] ++
        RecvResult.msg .done :: [RecvResult.msg (.data [2])]) [] =
      ⟨.ok [⟨some [1]⟩], true, 2⟩ := by
  obtain ⟨h1, h2⟩ := claim_C4_collector_bounded_stops_at_done 2
    [RecvResult.msg (.data [1]), RecvResult.msg .done] []
  refine ⟨h1, ?_⟩
  have h3 := h2 [RecvResult.msg (.data [1])] [RecvResult.msg (.data [2])]
    (by intro r hr; simp at hr; subst hr; exact Or.inl ⟨[1], rfl⟩) (by decide)
  simpa [recvChunk] using h3

/-- C1 counterexample: when the Collector receives an `Error` message,
`Compressor::compress` returns the error immediately (main.rs line 157),
skipping the join loop at lines 170-172, so the spawned workers are not
joined on this path — refuting the claim that workers are joined on
every path out of the receive loop. -/
theorem claim_C1_cex :
    (collectLoop 1 [RecvResult.msg (.error .invalidData)] []).result =
        .error .invalidData ∧
      (collectLoop 1 [RecvResult.msg (.error .invalidData)] []).joined = false :=
  ⟨rfl, rfl⟩

/-- C1 amended: the join loop is reached exactly when the receive loop
ends on an `Ok` path (loop exhaustion or a `Done` break); on receipt of
an `Error` message, `compress` returns the error without joining the
spawned workers. -/
theorem claim_C1_join_iff_ok (n : Nat) (recvs : List RecvResult) (acc : List Chunk) :
    ((collectLoop n recvs acc).joined = true ↔
      ∃ chs, (collectLoop n recvs acc).result = .ok chs) ∧
    (∀ (pre post : List RecvResult) (e : CompressionError),
      (∀ r ∈ pre, (∃ b, r = .msg (.data b)) ∨ r = .recvErr) →
      pre.length < n →
      collectLoop n (pre ++ .msg (.error e) :: post) acc = ⟨.error e, false, pre.length + 1⟩) := by
  refine ⟨collectLoop_joined_iff n recvs acc, ?_⟩
  intro pre
  induction pre generalizing n acc with
  | nil =>
      intro post e _ hn
      obtain ⟨m, rfl⟩ : ∃ m, n = m + 1 := ⟨n - 1, by omega⟩
      simp [collectLoop]
  | cons r pre ih =>
      intro post e hpre hn
      obtain ⟨m, rfl⟩ : ∃ m, n = m + 1 := ⟨n - 1, by omega⟩
      rcases hpre r (by simp) with ⟨b, rfl⟩ | rfl
      · have ihd := ih m (acc ++ [⟨some b⟩]) post e (fun r hr => hpre r (by simp [hr]))
          (by simp at hn ⊢; omega)
        simp [collectLoop, ihd]
      · have ihe := ih m acc post e (fun r hr => hpre r (by simp [hr]))
          (by simp at hn ⊢; omega)
        simp [collectLoop, ihe]

/-- Witness for C1 amended at a concrete run: an `Ok` run is joined, and
an `Error` received after one data message aborts without joining. -/
theorem claim_C1_witness :
    ((collectLoop 1 [RecvResult.msg .done] []).joined = true ↔
      ∃ chs, (collectLoop 1 [RecvResult.msg .done] []).result = .ok chs) ∧
    collectLoop 2 ([RecvResult.msg (.data [5])] ++
        RecvResult.msg (.error .invalidData) :: []) [] =
      ⟨.error .invalidData, false, 2⟩ := by
  obtain ⟨h1, _⟩ := claim_C1_join_iff_ok 1 [RecvResult.msg .done] []
  obtain ⟨_, h2⟩ := claim_C1_join_iff_ok 2 [RecvResult.msg (.data [5])] []
  refine ⟨h1, ?_⟩
  have h3 := h2 [RecvResult.msg (.data [5])] [] .invalidData
    (by intro r hr; simp at hr; subst hr; exact Or.inl ⟨[5], rfl⟩) (by decide)
  simpa using h3

/-- C2 counterexample: invoking the program with one argument (no user
arguments at all) makes `get_args` return an error, which `main`'s `?`
propagates; the process then exits with status 1, not 0 — refuting the
claim of a successful (zero) exit status on argument-count mismatch. -/
theorem claim_C2_cex :
    (mainArgsOut ["prog"] ⟨0, []⟩).exitCode = 1 ∧
      (mainArgsOut ["prog"] ⟨0, []⟩).exitCode ≠ 0 :=
  ⟨rfl, by decide⟩

/-- C2 amended: on any argument count other than exactly three (program
name plus two user arguments), the program writes an empty line to
standard error, the usage text reaches standard error through the
runtime's `Error:` report of the propagated error, and the process
terminates with exit status 1 (failure), not 0. -/
theorem claim_C2_usage_exit_one (args : List String) (onOk : ProcOut)
    (h : args.length ≠ 3) :
    (mainArgsOut args onOk).exitCode = 1 ∧
    (mainArgsOut args onOk).stderr =
      ["", "Error: \"" ++ ("Usage: " ++ args.headD "" ++ " <input_file> <output_file>")
        ++ "\""] := by
  simp [mainArgsOut, get_args, h]

/-- Witness for C2 amended at a concrete invocation with no user
arguments. -/
theorem claim_C2_witness :
    (mainArgsOut ["prog"] ⟨0, []⟩).exitCode = 1 ∧
    (mainArgsOut ["prog"] ⟨0, []⟩).stderr =
      ["", "Error: \"" ++ ("Usage: " ++ "prog" ++ " <input_file> <output_file>") ++ "\""] :=
  claim_C2_usage_exit_one ["prog"] ⟨0, []⟩ (by decide)

/-- C9: every chunk in a successful result of `Compressor::compress`
carries `compressed_data = Some …`; consequently the `filter_map` of
`Writer::write` drops nothing from the sequences `compress` produces. -/
theorem claim_C9_all_chunks_some (n : Nat) (recvs : List RecvResult) (chs : List Chunk)
    (h : (collectLoop n recvs []).result = .ok chs) :
    (∀ ch ∈ chs, ∃ d, ch.compressed_data = some d) ∧
    (chs.filterMap (fun ch => ch.compressed_data)).length = chs.length := by
  have hsome := collectLoop_ok_all_some n recvs [] chs (by simp) h
  exact ⟨fun ch hch => Option.isSome_iff_exists.mp (hsome ch hch),
    filterMap_some_length chs hsome⟩

/-- Witness for C9 at a concrete run collecting one data chunk. -/
theorem claim_C9_witness :
    (∀ ch ∈ [Chunk.mk (some [1])], ∃ d, ch.compressed_data = some d) ∧
    ([Chunk.mk (some [1])].filterMap (fun ch => ch.compressed_data)).length =
      [Chunk.mk (some [1])].length :=
  claim_C9_all_chunks_some 2 [RecvResult.msg (.data [1]), RecvResult.msg .done]
    [Chunk.mk (some [1])] rfl

/-- C5: the blocks `Writer::write` writes are exactly the chunks carrying
compressed data (a permutation of the `Some` payloads), in ascending
order of compressed byte length; when all lengths are distinct the
written order is strictly ascending. -/
theorem claim_C5_writer_sorts_by_length (chunks : List Chunk) :
    List.Perm (Writer.write chunks) (chunks.filterMap (fun ch => ch.compressed_data)) ∧
    (Writer.write chunks).Pairwise (fun a b => a.length ≤ b.length) ∧
    ((chunks.filterMap (fun ch => ch.compressed_data)).Pairwise
        (fun a b => a.length ≠ b.length) →
      (Writer.write chunks).Pairwise (fun a b => a.length < b.length)) := by
  have hperm : List.Perm (Writer.write chunks) (chunks.filterMap (fun ch => ch.compressed_data)) :=
    List.mergeSort_perm _ lenLE
  have hsorted : (Writer.write chunks).Pairwise (fun a b => a.length ≤ b.length) := by
    have h := @List.sorted_mergeSort _ lenLE lenLE_trans lenLE_total
      (chunks.filterMap (fun ch => ch.compressed_data))
    exact h.imp (fun hab => by simpa [lenLE] using hab)
  refine ⟨hperm, hsorted, fun hne => ?_⟩
  have hne' : (Writer.write chunks).Pairwise (fun a b => a.length ≠ b.length) :=
    (List.Perm.pairwise_iff (fun {_ _} h => Ne.symm h) hperm).mpr hne
  exact (hsorted.and hne').imp (fun hab => Nat.lt_of_le_of_ne hab.1 hab.2)

/-- Witness for C5 at a concrete chunk sequence containing a `None`
chunk and two data chunks of distinct lengths. -/
theorem claim_C5_witness :
    List.Perm (Writer.write [⟨some [7]⟩, ⟨none⟩, ⟨some [8, 9]⟩]) [[7], [8, 9]] ∧
    (Writer.write [⟨some [7]⟩, ⟨none⟩, ⟨some [8, 9]⟩]).Pairwise
      (fun a b => a.length < b.length) := by
  obtain ⟨h1, _, h3⟩ := claim_C5_writer_sorts_by_length [⟨some [7]⟩, ⟨none⟩, ⟨some [8, 9]⟩]
  exact ⟨h1, h3 (by decide)⟩

/-- C10: `Writer::write` sorts stably (Rust's `sort_by_key` guarantee):
two data blocks of equal compressed length keep the relative order they
have in the chunk sequence given to the Writer; the output layout is the
(deterministic) function `Writer.write` of the chunk sequence. -/
theorem claim_C10_writer_stable (chunks : List Chunk) (a b : List Byte)
    (hlen : a.length = b.length)
    (hsub : [a, b].Sublist (chunks.filterMap (fun ch => ch.compressed_data))) :
    [a, b].Sublist (Writer.write chunks) :=
  List.pair_sublist_mergeSort lenLE_trans lenLE_total (by simp [lenLE, hlen]) hsub

/-- Witness for C10 at two equal-length blocks adjacent in the chunk
sequence. -/
theorem claim_C10_witness :
    [[1], [2]].Sublist (Writer.write [Chunk.mk (some [1]), Chunk.mk (some [2])]) :=
  claim_C10_writer_stable [⟨some [1]⟩, ⟨some [2]⟩] [1] [2] rfl (List.Sublist.refl _)

/-- C6: after a successful non-empty read whose feed into the compressor
succeeds (and whose finalize would succeed), the worker finalizes the
current block, emits it as a `Data` chunk, and continues with a fresh
compressor (fed bytes reset to `[]`) exactly when the compressor's
internal output buffer length — `get_ref().len()`, not the raw input
length — has reached `chunk_size`; otherwise it continues accumulating
into the same compressor. -/
theorem claim_C6_emit_iff_buflen (c : Codec) (cs : Nat)
    (rest : List (Except CompressionError (List Byte))) (fed : List Byte)
    (b : Byte) (bs : List Byte)
    (hfeed : c.feedErr fed (b :: bs) = none)
    (hfin : c.finishFails (fed ++ b :: bs) = false) :
    CompressionWorker.run c cs (.ok (b :: bs) :: rest) fed =
      if cs ≤ c.bufLen (fed ++ b :: bs) then
        (.data (c.compress (fed ++ b :: bs)) :: (CompressionWorker.run c cs rest []).1,
          (CompressionWorker.run c cs rest []).2)
      else
        CompressionWorker.run c cs rest (fed ++ b :: bs) := by
  simp only [CompressionWorker.run, hfeed]
  by_cases hbuf : cs ≤ c.bufLen (fed ++ b :: bs)
  · rw [if_pos hbuf, if_pos hbuf, if_neg (by simp [hfin])]
  · rw [if_neg hbuf, if_neg hbuf]

/-- Witness for C6 at a concrete run: with the transparent codec and
`chunk_size = 2`, reading `[0, 1]` makes the buffer length reach 2, so a
block is emitted and a fresh compressor finishes the (empty) remainder. -/
theorem claim_C6_witness :
    CompressionWorker.run idCodec 2 [.ok [0, 1]] [] =
      ([.data [0, 1], .data [], .done], .finished) := by
  have h := claim_C6_emit_iff_buflen idCodec 2 [] [] 0 [1] rfl rfl
  exact h.trans (by decide)

/-- C7 counterexample: a codec whose `finish` fails makes the worker
panic at `finish().unwrap()` (main.rs line 107) — the worker emits no
message at all, refuting the claim that a finalize error makes it emit
exactly one `Error` message. -/
theorem claim_C7_cex :
    (CompressionWorker.run failCodec 1024 [.ok []] []).1 = [] ∧
    (CompressionWorker.run failCodec 1024 [.ok []] []).2 = .panicked :=
  ⟨rfl, rfl⟩

/-- C7 amended: on a read error or a feed (`write_all`) error the worker
emits exactly one `Error` message carrying the failure and terminates
immediately with no further `Data` or `Done`; a finalize (`finish`)
error instead panics the worker (the `unwrap` at lines 91 and 107),
emitting no message at all. -/
theorem claim_C7_error_paths (c : Codec) (cs : Nat) (fed : List Byte) :
    (∀ (e : CompressionError) (rest : List (Except CompressionError (List Byte))),
      CompressionWorker.run c cs (.error e :: rest) fed = ([.error e], .errored)) ∧
    (∀ (e : CompressionError) (rest : List (Except CompressionError (List Byte)))
        (b : Byte) (bs : List Byte),
      c.feedErr fed (b :: bs) = some e →
      CompressionWorker.run c cs (.ok (b :: bs) :: rest) fed = ([.error e], .errored)) ∧
    (c.finishFails fed = true →
      ∀ (rest : List (Except CompressionError (List Byte))),
      CompressionWorker.run c cs (.ok [] :: rest) fed = ([], .panicked)) ∧
    (∀ (rest : List (Except CompressionError (List Byte))) (b : Byte) (bs : List Byte),
      c.feedErr fed (b :: bs) = none →
      cs ≤ c.bufLen (fed ++ b :: bs) →
      c.finishFails (fed ++ b :: bs) = true →
      CompressionWorker.run c cs (.ok (b :: bs) :: rest) fed = ([], .panicked)) := by
  refine ⟨fun e rest => rfl, fun e rest b bs hf => ?_, fun hf rest => ?_,
    fun rest b bs hnf hbuf hf => ?_⟩
  · simp [CompressionWorker.run, hf]
  · simp [CompressionWorker.run, hf]
  · simp [CompressionWorker.run, hnf, hbuf, hf]

/-- Witness for C7 amended: a concrete read error yields exactly one
`Error` message, and a concrete failing finalize yields a panic with no
message. -/
theorem claim_C7_witness :
    CompressionWorker.run idCodec 1024 [.error (.ioError 5)] [] =
      ([.error (.ioError 5)], .errored) ∧
    CompressionWorker.run failCodec 1024 [.ok []] [] = ([], .panicked) :=
  ⟨(claim_C7_error_paths idCodec 1024 []).1 (.ioError 5) [],
   (claim_C7_error_paths failCodec 1024 []).2.2.1 rfl []⟩

/-- C3 counterexample: with a valid round-trip codec (the transparent
one), `chunk_size = 2` and input `[0, 1, 2]`, the single worker emits
two blocks (`[0, 1]` and `[2]`), but the Collector's loop with
`num_threads = 1` performs a single receive and keeps only the first
block, so the written output decompresses to `[0, 1]` — not the
original input.  The single-worker round trip claim fails on the code. -/
theorem claim_C3_cex :
    singleWorkerMsgs idCodec 2 [0, 1, 2] = [.data [0, 1], .data [2], .done] ∧
    decompressedOutput idCodec 2 [0, 1, 2] = [0, 1] ∧
    ([0, 1] : List Byte) ≠ [0, 1, 2] := by
  refine ⟨rfl, ?_, by decide⟩
  have hchunks : singleWorkerChunks idCodec 2 [0, 1, 2] = .ok [⟨some [0, 1]⟩] := rfl
  simp only [decompressedOutput, pipelineOutput]
  rw [hchunks]
  simp [Writer.write, idCodec]

/-- C3 amended: for a single worker and a nonzero `chunk_size`, the
round trip holds exactly on the runs that produce a single block: if the
worker's message stream is one `Data` block followed by `Done` (given a
round-trip codec without feed or finalize failures), then decompressing
the written output reproduces the input byte-for-byte.  (For multi-block
runs the `num_threads = 1` Collector keeps only the first block, see the
counterexample.) -/
theorem claim_C3_roundtrip_single_block (c : Codec) (cs : Nat) (data blk : List Byte)
    (hcs : cs ≠ 0)
    (hrt : ∀ x, c.decompress (c.compress x) = x)
    (hnf : ∀ fed bs, c.feedErr fed bs = none)
    (hff : ∀ fed, c.finishFails fed = false)
    (hone : singleWorkerMsgs c cs data = [.data blk, .done]) :
    decompressedOutput c cs data = data := by
  have hflat := run_chunkReads_flatten c cs hcs hrt hnf hff data.length data [] (Nat.le_refl _)
  have hmsgs : (CompressionWorker.run c cs (chunkReads cs data) []).1 =
      singleWorkerMsgs c cs data := rfl
  rw [hmsgs, hone] at hflat
  have hblk : c.decompress blk = data := by
    simpa [msgData] using hflat
  have hchunks : singleWorkerChunks c cs data = .ok [⟨some blk⟩] := by
    simp [singleWorkerChunks, hone, collectLoop]
  have hwrite : pipelineOutput c cs data = [blk] := by
    simp [pipelineOutput, hchunks, Writer.write]
  simp [decompressedOutput, hwrite, hblk]

/-- Witness for C3 amended at a concrete single-block run: the
transparent codec, `chunk_size = 2`, input `[5]`. -/
theorem claim_C3_witness :
    singleWorkerMsgs idCodec 2 [5] = [.data [5], .done] ∧
    decompressedOutput idCodec 2 [5] = [5] :=
  ⟨rfl, claim_C3_roundtrip_single_block idCodec 2 [5] [5] (by decide)
    (fun _ => rfl) (fun _ _ => rfl) (fun _ => rfl) rfl⟩

/-- C8 counterexample: on empty input each of the four workers of the
default pipeline emits one block then `Done`; the channel may deliver
the four `Data` messages first (a valid interleaving of the per-worker
streams), in which case the Collector's four receives collect four
chunks — not exactly one finalized block as claimed. -/
theorem claim_C8_cex :
    MergeOf (List.replicate 4 [CompressionMessage.data [], .done])
      (List.replicate 4 (CompressionMessage.data []) ++
        List.replicate 4 CompressionMessage.done) ∧
    (CompressionWorker.run idCodec 1024 (chunkReads 1024 []) []).1 =
      [.data (idCodec.compress []), .done] ∧
    (collectLoop 4 ((List.replicate 4 (CompressionMessage.data [])).map .msg) []).result =
      .ok (List.replicate 4 ⟨some []⟩) ∧
    (List.replicate 4 (Chunk.mk (some []))).length ≠ 1 := by
  refine ⟨?_, rfl, rfl, by decide⟩
  show MergeOf
    [[CompressionMessage.data [], .done], [CompressionMessage.data [], .done],
      [CompressionMessage.data [], .done], [CompressionMessage.data [], .done]]
    [CompressionMessage.data [], .data [], .data [], .data [], .done, .done, .done, .done]
  refine MergeOf.cons [] (.data []) [.done]
    [[.data [], .done], [.data [], .done], [.data [], .done]] _ ?_
  refine MergeOf.cons [[.done]] (.data []) [.done]
    [[.data [], .done], [.data [], .done]] _ ?_
  refine MergeOf.cons [[.done], [.done]] (.data []) [.done] [[.data [], .done]] _ ?_
  refine MergeOf.cons [[.done], [.done], [.done]] (.data []) [.done] [] _ ?_
  refine MergeOf.cons [] .done [] [[.done], [.done], [.done]] _ ?_
  refine MergeOf.cons [[]] .done [] [[.done], [.done]] _ ?_
  refine MergeOf.cons [[], []] .done [] [[.done]] _ ?_
  refine MergeOf.cons [[], [], []] .done [] [] _ ?_
  exact MergeOf.nil [[], [], [], []] (by simp)

/-- C8 amended: on empty input every worker emits exactly one block
(which decompresses to zero bytes) followed by `Done`; for any channel
interleaving of the `n ≥ 1` worker streams of which the Collector
receives its `n` messages, the run succeeds, reaches the join loop, and
collects between 1 and `n` such blocks — not always exactly one — and
the written output file decompresses to zero bytes. -/
theorem claim_C8_empty_input (c : Codec) (n : Nat) (hn : 1 ≤ n)
    (recv rest : List CompressionMessage)
    (hmerge : MergeOf (List.replicate n [.data (c.compress []), .done]) (recv ++ rest))
    (hlen : recv.length = n)
    (hrt : c.decompress (c.compress []) = []) :
    ∃ chunks,
      (collectLoop n (recv.map .msg) []).result = .ok chunks ∧
      (collectLoop n (recv.map .msg) []).joined = true ∧
      1 ≤ chunks.length ∧ chunks.length ≤ n ∧
      ((Writer.write chunks).map c.decompress).flatten = [] := by
  obtain ⟨x, recv', rfl⟩ : ∃ x r, recv = x :: r := by
    cases recv with
    | nil =>
        exfalso
        simp at hlen
        omega
    | cons x r => exact ⟨x, r, rfl⟩
  have hall : ∀ m ∈ x :: recv', m = CompressionMessage.data (c.compress []) ∨ m = .done := by
    intro m hm
    obtain ⟨s, hs, hms⟩ := mergeOf_mem hmerge m (List.mem_append.mpr (Or.inl hm))
    have hrep : s = [CompressionMessage.data (c.compress []), .done] :=
      List.eq_of_mem_replicate hs
    subst hrep
    simpa using hms
  have hx : x = CompressionMessage.data (c.compress []) := by
    obtain ⟨t, ht⟩ := mergeOf_head hmerge
    have hrep : x :: t = [CompressionMessage.data (c.compress []), .done] :=
      List.eq_of_mem_replicate ht
    injection hrep with h1 _
  subst hx
  obtain ⟨m, rfl⟩ : ∃ m, n = m + 1 := ⟨n - 1, by omega⟩
  obtain ⟨k, hk, hres, hj⟩ := collectLoop_dataDone (c.compress []) m recv'
    [⟨some (c.compress [])⟩] (fun y hy => hall y (by simp [hy]))
  refine ⟨List.replicate (k + 1) ⟨some (c.compress [])⟩, ?_, ?_, by simp, by simpa using hk, ?_⟩
  · simp only [List.map_cons, collectLoop, List.nil_append, hres,
      List.replicate_succ, List.singleton_append]
  · simpa only [List.map_cons, collectLoop] using hj
  · rw [List.flatten_eq_nil_iff]
    intro l hl
    obtain ⟨y, hy, rfl⟩ := List.mem_map.mp hl
    have hy' : y = c.compress [] := by
      simpa [Writer.write, List.filterMap_replicate_of_some
        (show (fun ch : Chunk => ch.compressed_data) ⟨some (c.compress [])⟩ =
          some (c.compress []) from rfl)] using hy
    rw [hy']
    exact hrt

/-- Witness for C8 amended at a concrete run: one worker on empty input
with the transparent codec. -/
theorem claim_C8_witness :
    ∃ chunks,
      (collectLoop 1 ([CompressionMessage.data []].map .msg) []).result = .ok chunks ∧
      (collectLoop 1 ([CompressionMessage.data []].map .msg) []).joined = true ∧
      1 ≤ chunks.length ∧ chunks.length ≤ 1 ∧
      ((Writer.write chunks).map idCodec.decompress).flatten = [] := by
  refine claim_C8_empty_input idCodec 1 (by decide) [.data []] [.done] ?_ rfl rfl
  show MergeOf [[CompressionMessage.data [], .done]] [CompressionMessage.data [], .done]
  refine MergeOf.cons [] (.data []) [.done] [] _ ?_
  refine MergeOf.cons [] .done [] [] _ ?_
  exact MergeOf.nil [[]] (by simp)

end RustCompress
